import Mathlib

/- Verification development for the GameBoy demo ROM source
   src/roms/source/hello world.c:

     void main() \x7b
       printf("Press 'start'...\n\n");
       waitpad(J_START);
       printf("You win!\n");
     \x7d

   The calls printf and waitpad come from GBDK headers (stdio.h, gb/gb.h)
   that are not part of the repository; the specification describes printf
   as a write of the literal text to the output surface and waitpad as
   blocking until the designated "start" control is observed as pressed,
   consuming only a boolean "is start pressed" observation per poll.  The
   program is embedded twice, consistently: as an executable event-trace
   function over a finite list of input observations, and as a labelled
   small-step machine for the temporal and invariant claims. -/

namespace HelloGB

/-- The prompt string written by the printf at line 12 of
src/roms/source/hello world.c. -/
def promptMsg : String := "Press 'start'...\n\n"

/-- The win string written by the printf at line 14 of
src/roms/source/hello world.c. -/
def winMsg : String := "You win!\n"

/-- One observable event of the program: a write of a string to the text
output surface, or a single poll of the input surface observing whether the
designated start control is pressed. -/
inductive Event where
  | write (s : String)
  | poll (pressed : Bool)
deriving DecidableEq

/-- Modelled from the spec: `waitpad` is declared in GBDK gb/gb.h, which is
not part of this repository; the spec describes it as blocking until the
designated start control is observed as pressed, polling the input once per
step.  Over a finite list of input observations these are the polls the wait
performs: it stops at the first observation that is pressed, or consumes the
whole list without completing. -/
def waitpadPolls : List Bool → List Event
  | [] => []
  | b :: rest => Event.poll b :: if b then [] else waitpadPolls rest

/-- Modelled from the spec: whether the wait terminates within the given
finite list of observations, i.e. whether some observation is pressed. -/
def waitpadDone : List Bool → Bool
  | [] => false
  | b :: rest => b || waitpadDone rest

/-- The event trace of `main` (src/roms/source/hello world.c, lines 11-15)
over a finite list of input observations: write the prompt, poll inside
`waitpad`, and, exactly when the wait completes, write the win message. -/
def mainTrace (inputs : List Bool) : List Event :=
  Event.write promptMsg ::
    (waitpadPolls inputs ++ if waitpadDone inputs then [Event.write winMsg] else [])

/-- The string a write event emits, if any. -/
def writeOf : Event → Option String
  | Event.write s => some s
  | Event.poll _ => none

/-- Whether an event is a write to the output surface. -/
def isWrite : Event → Bool
  | Event.write _ => true
  | Event.poll _ => false

/-- The strings `main` writes to the output surface, in order. -/
def outputs (inputs : List Bool) : List String :=
  (mainTrace inputs).filterMap writeOf

/-- Program counter of the body of `main`: the printf at line 12, the
waitpad at line 13, the printf at line 14, or the point after `main`
returned (line 15). -/
inductive PC where
  | printPrompt
  | waitStart
  | printWin
  | returned
deriving DecidableEq

/-- A machine state: the program counter and the strings written so far. -/
structure State where
  pc : PC
  out : List String
deriving DecidableEq

/-- The initial state: about to execute line 12, nothing written yet. -/
def init : State := ⟨PC.printPrompt, []⟩

/-- The labelled small-step relation of the program.  Label `none` is an
internal step (a printf); label `some b` is one poll of the input surface
inside `waitpad`, observing pressed flag `b`.  No step leaves `returned`. -/
inductive Step : State → Option Bool → State → Prop where
  | prompt (out : List String) :
      Step ⟨PC.printPrompt, out⟩ none ⟨PC.waitStart, out ++ [promptMsg]⟩
  | pollNotPressed (out : List String) :
      Step ⟨PC.waitStart, out⟩ (some false) ⟨PC.waitStart, out⟩
  | pollPressed (out : List String) :
      Step ⟨PC.waitStart, out⟩ (some true) ⟨PC.printWin, out⟩
  | win (out : List String) :
      Step ⟨PC.printWin, out⟩ none ⟨PC.returned, out ++ [winMsg]⟩

/-- Multi-step execution: `Exec s ls t` means the machine runs from `s` to
`t` performing exactly the labelled steps `ls`, in order. -/
inductive Exec : State → List (Option Bool) → State → Prop where
  | nil (s : State) : Exec s [] s
  | cons {s t u : State} {l : Option Bool} {ls : List (Option Bool)} :
      Step s l t → Exec t ls u → Exec s (l :: ls) u

/-- The two-valued execution state of the spec's data model (section 3). -/
inductive ExecState where
  | awaitingInput
  | completed
deriving DecidableEq

/-- The abstraction from machine states to the spec's execution state: the
program is awaiting input until the poll that observes start pressed; from
that poll on it is completed. -/
def execStateOf (s : State) : ExecState :=
  match s.pc with
  | PC.printPrompt => ExecState.awaitingInput
  | PC.waitStart => ExecState.awaitingInput
  | PC.printWin => ExecState.completed
  | PC.returned => ExecState.completed

theorem winMsg_ne_promptMsg : winMsg ≠ promptMsg := by decide

theorem filterMap_writeOf_waitpadPolls (l : List Bool) :
    (waitpadPolls l).filterMap writeOf = [] := by
  induction l with
  | nil => rfl
  | cons b rest ih =>
      cases b <;> simp [waitpadPolls, writeOf, List.filterMap_cons, ih]

theorem waitpadPolls_polls (l : List Bool) :
    ∀ e ∈ waitpadPolls l, ∃ b, e = Event.poll b := by
  induction l with
  | nil =>
      intro e he
      simp [waitpadPolls] at he
  | cons b rest ih =>
      intro e he
      cases b <;> simp [waitpadPolls] at he
      · rcases he with he | he
        · exact ⟨false, he⟩
        · exact ih e he
      · exact ⟨true, he⟩

theorem waitpadDone_iff (l : List Bool) : waitpadDone l = true ↔ true ∈ l := by
  induction l with
  | nil => simp [waitpadDone]
  | cons b rest ih =>
      cases b <;> simp [waitpadDone, ih]

theorem outputs_eq (l : List Bool) :
    outputs l = promptMsg :: if waitpadDone l then [winMsg] else [] := by
  unfold outputs mainTrace
  rw [List.filterMap_cons, List.filterMap_append, filterMap_writeOf_waitpadPolls]
  cases waitpadDone l <;> simp [writeOf]

theorem waitpadPolls_of_done (l : List Bool) (h : waitpadDone l = true) :
    ∃ k, waitpadPolls l = List.replicate k (Event.poll false) ++ [Event.poll true] := by
  induction l with
  | nil => simp [waitpadDone] at h
  | cons b rest ih =>
      cases b
      · simp only [waitpadDone, Bool.false_or] at h
        rcases ih h with ⟨k, hk⟩
        exact ⟨k + 1, by simp [waitpadPolls, hk, List.replicate_succ]⟩
      · exact ⟨0, by simp [waitpadPolls]⟩

theorem waitpadDone_false_of_no_press (l : List Bool) (h : ∀ b ∈ l, b = false) :
    waitpadDone l = false := by
  cases hw : waitpadDone l
  · rfl
  · have := h true ((waitpadDone_iff l).mp hw)
    simp at this

theorem step_deterministic {s : State} {l : Option Bool} {s1 s2 : State}
    (h1 : Step s l s1) (h2 : Step s l s2) : s1 = s2 := by
  cases h1 <;> cases h2 <;> rfl

theorem exec_deterministic {s : State} {ls : List (Option Bool)} {s1 s2 : State}
    (h1 : Exec s ls s1) (h2 : Exec s ls s2) : s1 = s2 := by
  induction h1 generalizing s2 with
  | nil s => cases h2; rfl
  | cons hstep hrest ih =>
      cases h2 with
      | cons hstep2 hrest2 =>
          cases step_deterministic hstep hstep2
          exact ih hrest2

theorem exec_no_press_inv {s t : State} {ls : List (Option Bool)}
    (hexec : Exec s ls t) :
    winMsg ∉ s.out → (s.pc = PC.printPrompt ∨ s.pc = PC.waitStart) →
    some true ∉ ls →
    winMsg ∉ t.out ∧ (t.pc = PC.printPrompt ∨ t.pc = PC.waitStart) := by
  induction hexec with
  | nil s =>
      intro h1 h2 _
      exact ⟨h1, h2⟩
  | cons hstep hrest ih =>
      intro h1 h2 hls
      have htail : some true ∉ _ := fun hmem => hls (List.mem_cons_of_mem _ hmem)
      cases hstep with
      | prompt out =>
          refine ih ?_ (Or.inr rfl) htail
          simp only [List.mem_append, List.mem_singleton]
          rintro (hmem | hmem)
          · exact h1 hmem
          · exact winMsg_ne_promptMsg hmem
      | pollNotPressed out =>
          exact ih h1 h2 htail
      | pollPressed out =>
          exact absurd (List.mem_cons_self _ _) hls
      | win out =>
          rcases h2 with h2 | h2 <;> simp at h2

/-- C1: on invocation the program performs exactly this observable sequence:
it writes `Press 'start'...` followed by a blank line, then polls the input,
observing not-pressed some number of times, until the start control is
observed as pressed, then writes `You win!`, and the trace ends there with
no further defined behavior. -/
theorem main_observable_sequence (l : List Bool) (h : waitpadDone l = true) :
    ∃ k, mainTrace l =
      Event.write promptMsg ::
        (List.replicate k (Event.poll false) ++
          [Event.poll true, Event.write winMsg]) := by
  rcases waitpadPolls_of_done l h with ⟨k, hk⟩
  refine ⟨k, ?_⟩
  simp [mainTrace, hk, h]

theorem main_observable_sequence_witness :
    ∃ k, mainTrace [false, true] =
      Event.write promptMsg ::
        (List.replicate k (Event.poll false) ++
          [Event.poll true, Event.write winMsg]) :=
  main_observable_sequence [false, true] (by decide)

/-- C2: over any input-signal sequence, `You win!` is written exactly once
when the start signal has been observed at least once, and zero times
otherwise, regardless of how many further presses occur. -/
theorem win_emitted_iff_start_observed (l : List Bool) :
    (outputs l).count winMsg = if true ∈ l then 1 else 0 := by
  rw [outputs_eq]
  by_cases hmem : true ∈ l
  · rw [if_pos hmem, (waitpadDone_iff l).mpr hmem]
    decide
  · have hd : waitpadDone l = false := by
      cases hw : waitpadDone l
      · rfl
      · exact absurd ((waitpadDone_iff l).mp hw) hmem
    rw [if_neg hmem, hd]
    decide

/-- C3: along any execution from the initial state whose steps never observe
the start signal as pressed, the machine never writes `You win!` and the
wait never terminates: every reachable state is still at the prompt printf
or inside the waitpad. -/
theorem no_press_never_wins (ls : List (Option Bool)) (t : State)
    (hexec : Exec init ls t) (hls : some true ∉ ls) :
    winMsg ∉ t.out ∧ (t.pc = PC.printPrompt ∨ t.pc = PC.waitStart) :=
  exec_no_press_inv hexec (by simp [init]) (Or.inl rfl) hls

theorem no_press_never_wins_witness :
    winMsg ∉ (State.mk PC.waitStart [promptMsg]).out ∧
      ((State.mk PC.waitStart [promptMsg]).pc = PC.printPrompt ∨
        (State.mk PC.waitStart [promptMsg]).pc = PC.waitStart) :=
  no_press_never_wins [none, some false] (State.mk PC.waitStart [promptMsg])
    (Exec.cons (Step.prompt [])
      (Exec.cons (Step.pollNotPressed [promptMsg]) (Exec.nil _)))
    (by decide)

/-- C4: for every input sequence, the events the program performs before its
first poll of the input surface are exactly one write of `Press 'start'...`
followed by a blank line, and nothing else. -/
theorem initial_output_exact (l : List Bool) :
    (mainTrace l).takeWhile isWrite = [Event.write promptMsg] := by
  cases l <;> rfl

/-- C5: in every execution the trace decomposes as the full write of the
prompt, then the polls of the wait, then (possibly) the write of `You win!`:
the first message is fully written before the wait begins and the second
only after the wait completes, with no interleaving. -/
theorem output_wait_ordering (l : List Bool) :
    ∃ ps ws, mainTrace l = Event.write promptMsg :: (ps ++ ws) ∧
      (∀ e ∈ ps, ∃ b, e = Event.poll b) ∧
      (∀ e ∈ ws, e = Event.write winMsg) := by
  refine ⟨waitpadPolls l, if waitpadDone l then [Event.write winMsg] else [],
    rfl, waitpadPolls_polls l, ?_⟩
  intro e he
  cases waitpadDone l <;> simp_all

/-- C6: on the input sequence no-press, no-press, start-press, the complete
output is exactly the line `Press 'start'...`, a blank line, and the line
`You win!`, and nothing more. -/
theorem end_to_end_scenario :
    outputs [false, false, true] = [promptMsg, winMsg] ∧
      String.join (outputs [false, false, true]) =
        "Press 'start'...\n\nYou win!\n" :=
  ⟨rfl, rfl⟩

/-- C7: on an input sequence that never observes a press, the total output
ever produced is exactly `Press 'start'...` followed by two newlines, and
nothing more at any later point. -/
theorem no_input_output_exact (l : List Bool) (h : ∀ b ∈ l, b = false) :
    outputs l = [promptMsg] ∧
      String.join (outputs l) = "Press 'start'...\n\n" := by
  rw [outputs_eq, waitpadDone_false_of_no_press l h]
  exact ⟨rfl, rfl⟩

theorem no_input_output_exact_witness :
    outputs [false, false] = [promptMsg] ∧
      String.join (outputs [false, false]) = "Press 'start'...\n\n" :=
  no_input_output_exact [false, false] (by decide)

/-- C8: under the abstraction to the spec's two-valued execution state, the
machine starts in awaiting-input and a step ends in completed exactly when
it either already started there (no transition out of completed) or is the
poll that observes the start signal pressed, so the transition to completed
happens exactly once, at the first pressed observation. -/
theorem exec_state_two_valued :
    execStateOf init = ExecState.awaitingInput ∧
      ∀ s l t, Step s l t →
        (execStateOf t = ExecState.completed ↔
          (execStateOf s = ExecState.completed ∨ l = some true)) := by
  refine ⟨rfl, ?_⟩
  intro s l t hstep
  cases hstep <;> simp [execStateOf]

/-- C9: the program is deterministic in its input: two executions from the
same state along the same labelled input sequence end in states with
identical output sequences (content and order). -/
theorem deterministic_outputs (s : State) (ls : List (Option Bool))
    (s1 s2 : State) (h1 : Exec s ls s1) (h2 : Exec s ls s2) :
    s1.out = s2.out := by
  rw [exec_deterministic h1 h2]

theorem deterministic_outputs_witness :
    (State.mk PC.waitStart [promptMsg]).out =
      (State.mk PC.waitStart [promptMsg]).out :=
  deterministic_outputs init [none]
    (State.mk PC.waitStart [promptMsg]) (State.mk PC.waitStart [promptMsg])
    (Exec.cons (Step.prompt []) (Exec.nil _))
    (Exec.cons (Step.prompt []) (Exec.nil _))

/-- C10: whenever the wait completes, the last string written to the output
surface is exactly `You win!` followed by one newline, so the final output
ends in a newline. -/
theorem win_message_trailing_newline (l : List Bool)
    (h : waitpadDone l = true) :
    (outputs l).getLast? = some ("You win!" ++ "\n") := by
  rw [outputs_eq, h]
  rfl

theorem win_message_trailing_newline_witness :
    (outputs [true]).getLast? = some ("You win!" ++ "\n") :=
  win_message_trailing_newline [true] (by decide)

end HelloGB
